import Mathlib

/-!
Shallow embedding of the fetch-verify-unpack-delegate pipeline of
`internal/version/version.go` (package `version` of the `dl` repository).

Go strings are modelled as `List Char` (the programs only manipulate
ASCII data); byte contents of files are `List Nat` with each element
below 256.  Machine integers that can be negative (HTTP content lengths,
process exit codes) are `Int`; sizes are `Nat`.  The filesystem is an
association list from paths to byte contents; writing prepends (lookup
takes the first hit), removing filters every binding out.
-/

set_option autoImplicit false
set_option maxRecDepth 10000

namespace GoDL

deriving instance DecidableEq for Except

abbrev Str := List Char

abbrev Bytes := List Nat

abbrev FS := List (Str × Bytes)

/-- Lookup in the modelled filesystem: `os.Stat`/`os.Open` succeed exactly
when the path is bound. -/
def fsGet (fs : FS) (p : Str) : Option Bytes :=
  match fs with
  | [] => none
  | (q, b) :: rest => if p = q then some b else fsGet rest p

/-- Write (create or truncate) a file: new binding shadows any older one. -/
def fsSet (fs : FS) (p : Str) (b : Bytes) : FS := (p, b) :: fs

/-- Remove a file, as `os.Remove` does. -/
def fsRemove (fs : FS) (p : Str) : FS :=
  fs.filter (fun q => decide (q.1 ≠ p))

@[simp] theorem fsGet_fsSet (fs : FS) (p : Str) (b : Bytes) :
    fsGet (fsSet fs p b) p = some b := by
  simp [fsGet, fsSet]

@[simp] theorem fsGet_fsRemove (fs : FS) (p : Str) :
    fsGet (fsRemove fs p) p = none := by
  induction fs with
  | nil => rfl
  | cons q rest ih =>
    obtain ⟨k, b⟩ := q
    rw [fsRemove, List.filter_cons]
    by_cases h : k = p
    · rw [if_neg (by simp [h])]
      exact ih
    · rw [if_pos (by simp [h])]
      show (if p = k then some b else fsGet (rest.filter fun q => decide (q.1 ≠ p)) p) = none
      rw [if_neg (Ne.symm h)]
      exact ih

/-! ## Environment deduplication (`dedupEnv`, version.go lines 517-538) -/

/-- Key of an environment entry, mirroring the loop body of `dedupEnv`:
`eq := strings.Index(kv, "=")`; entries with `eq < 1` (no `=`, or `=` as
the first character) are malformed and carry no key; otherwise the key is
`kv[:eq]`, lowercased when `caseInsensitive` is set. -/
def entryKey (ci : Bool) (kv : Str) : Option Str :=
  match kv.findIdx? (· = '=') with
  | none => none
  | some 0 => none
  | some i => some (if ci then (kv.take i).map Char.toLower else kv.take i)

/-- The `saw` map of `dedupEnv`: key to index in the output array. -/
def lookupIdx : List (Str × Nat) → Str → Option Nat
  | [], _ => none
  | (k, i) :: rest, key => if key = k then some i else lookupIdx rest key

/-- Loop of `dedupEnv`: walk the input, appending fresh keys (recording
their output index in `saw`) and overwriting the recorded slot for
duplicate keys with the later entry. -/
def dedupLoop (ci : Bool) : List Str → List Str → List (Str × Nat) → List Str
  | [], out, _ => out
  | kv :: rest, out, saw =>
    match entryKey ci kv with
    | none => dedupLoop ci rest (out ++ [kv]) saw
    | some k =>
      match lookupIdx saw k with
      | some i => dedupLoop ci rest (out.set i kv) saw
      | none => dedupLoop ci rest (out ++ [kv]) ((k, out.length) :: saw)

/-- `dedupEnv` from version.go: duplicates removed in favor of later
values, keys optionally compared case-insensitively. -/
def dedupEnv (ci : Bool) (env : List Str) : List Str := dedupLoop ci env [] []

/-- Last entry of `env` whose key folds to `k`, if any. -/
def lastWithKey (ci : Bool) (k : Str) : List Str → Option Str
  | [] => none
  | kv :: rest =>
    match lastWithKey ci k rest with
    | some w => some w
    | none => if entryKey ci kv = some k then some kv else none

/-- Drop every entry whose key folds to `k`. -/
def eraseKey (ci : Bool) (k : Str) (env : List Str) : List Str :=
  env.filter (fun kv => decide (entryKey ci kv ≠ some k))

/-- Spec-side description of deduplication: entries are listed in order of
the first occurrence of their key, each well-formed entry is replaced by
the last entry of the input sharing its key, and malformed entries pass
through unchanged.  Stated from the specification text, to be compared
with `dedupEnv`. -/
def specDedup (ci : Bool) : List Str → List Str
  | [] => []
  | kv :: rest =>
    match entryKey ci kv with
    | none => kv :: specDedup ci rest
    | some k =>
      ((lastWithKey ci k rest).getD kv) :: specDedup ci (eraseKey ci k rest)
termination_by env => env.length
decreasing_by
  · simp only [List.length_cons]
    omega
  · simp only [List.length_cons]
    exact Nat.lt_succ_of_le (List.length_filter_le _ _)

/-! ## SHA-256 (model of crypto/sha256 as used by verifySHA256) -/

/-- Two to the thirty-two: modulus of 32-bit word arithmetic. -/
def M32 : Nat := 4294967296

def add32 (a b : Nat) : Nat := (a + b) % M32

def rotr32 (x n : Nat) : Nat := ((x >>> n) ||| (x <<< (32 - n))) % M32

def not32 (x : Nat) : Nat := x ^^^ 4294967295

def bsig0 (x : Nat) : Nat := (rotr32 x 2) ^^^ (rotr32 x 13) ^^^ (rotr32 x 22)

def bsig1 (x : Nat) : Nat := (rotr32 x 6) ^^^ (rotr32 x 11) ^^^ (rotr32 x 25)

def ssig0 (x : Nat) : Nat := (rotr32 x 7) ^^^ (rotr32 x 18) ^^^ (x >>> 3)

def ssig1 (x : Nat) : Nat := (rotr32 x 17) ^^^ (rotr32 x 19) ^^^ (x >>> 10)

def chf (x y z : Nat) : Nat := (x &&& y) ^^^ ((not32 x) &&& z)

def majf (x y z : Nat) : Nat := (x &&& y) ^^^ (x &&& z) ^^^ (y &&& z)

/-- The 64 SHA-256 round constants. -/
def sha256K : List Nat :=
  [1116352408, 1899447441, 3049323471, 3921009573, 961987163, 1508970993,
   2453635748, 2870763221, 3624381080, 310598401, 607225278, 1426881987,
   1925078388, 2162078206, 2614888103, 3248222580, 3835390401, 4022224774,
   264347078, 604807628, 770255983, 1249150122, 1555081692, 1996064986,
   2554220882, 2821834349, 2952996808, 3210313671, 3336571891, 3584528711,
   113926993, 338241895, 666307205, 773529912, 1294757372, 1396182291,
   1695183700, 1986661051, 2177026350, 2456956037, 2730485921, 2820302411,
   3259730800, 3345764771, 3516065817, 3600352804, 4094571909, 275423344,
   430227734, 506948616, 659060556, 883997877, 958139571, 1322822218,
   1537002063, 1747873779, 1955562222, 2024104815, 2227730452, 2361852424,
   2428436474, 2756734187, 3204031479, 3329325298]

structure Hash8 where
  a : Nat
  b : Nat
  c : Nat
  d : Nat
  e : Nat
  f : Nat
  g : Nat
  h : Nat
  deriving DecidableEq

def initH : Hash8 :=
  ⟨1779033703, 3144134277, 1013904242, 2773480762, 1359893119, 2600822924, 528734635, 1541459225⟩

/-- Big-endian byte rendering of a value in `n` bytes. -/
def beBytes : Nat → Nat → Bytes
  | 0, _ => []
  | n + 1, v => beBytes n (v / 256) ++ [v % 256]

/-- SHA-256 padding: a 0x80 byte, zeros to 56 mod 64, then the bit length. -/
def padMsg (msg : Bytes) : Bytes :=
  msg ++ 0x80 :: (List.replicate ((119 - msg.length % 64) % 64) 0 ++ beBytes 8 (8 * msg.length))

def toWords : Bytes → List Nat
  | b0 :: b1 :: b2 :: b3 :: rest => (((b0 * 256 + b1) * 256 + b2) * 256 + b3) :: toWords rest
  | _ => []

/-- Split into 64-byte blocks; the fuel argument (any bound on the number
of blocks, such as the length) keeps the recursion structural. -/
def chunksAux : Nat → Bytes → List Bytes
  | 0, _ => []
  | n + 1, b => if b = [] then [] else b.take 64 :: chunksAux n (b.drop 64)

def chunks64 (b : Bytes) : List Bytes := chunksAux b.length b

/-- Message-schedule extension: `acc` is the reversed schedule so far. -/
def extSched : Nat → List Nat → List Nat
  | 0, acc => acc.reverse
  | n + 1, acc =>
    extSched n ((add32 (add32 (ssig1 (acc.getD 1 0)) (acc.getD 6 0))
      (add32 (ssig0 (acc.getD 14 0)) (acc.getD 15 0))) :: acc)

def schedule (block : Bytes) : List Nat := extSched 48 (toWords block).reverse

def roundF (st : Hash8) (ki wi : Nat) : Hash8 :=
  let t1 := add32 (add32 (add32 st.h (bsig1 st.e)) (add32 (chf st.e st.f st.g) ki)) wi
  let t2 := add32 (bsig0 st.a) (majf st.a st.b st.c)
  ⟨add32 t1 t2, st.a, st.b, st.c, add32 st.d t1, st.e, st.f, st.g⟩

def compressBlock (st : Hash8) (block : Bytes) : Hash8 :=
  let fin := (sha256K.zip (schedule block)).foldl (fun s p => roundF s p.1 p.2) st
  ⟨add32 st.a fin.a, add32 st.b fin.b, add32 st.c fin.c, add32 st.d fin.d,
   add32 st.e fin.e, add32 st.f fin.f, add32 st.g fin.g, add32 st.h fin.h⟩

/-- SHA-256 digest (32 bytes) of a byte string. -/
def sha256 (msg : Bytes) : Bytes :=
  let st := (chunks64 (padMsg msg)).foldl compressBlock initH
  beBytes 4 st.a ++ beBytes 4 st.b ++ beBytes 4 st.c ++ beBytes 4 st.d ++
    beBytes 4 st.e ++ beBytes 4 st.f ++ beBytes 4 st.g ++ beBytes 4 st.h

/-- Lowercase hex digit, as produced by Go fmt %x. -/
def hexDigit (n : Nat) : Char := if n < 10 then Char.ofNat (48 + n) else Char.ofNat (87 + n)

/-- Lowercase hex encoding of a byte string, two digits per byte. -/
def hexEncode (bs : Bytes) : Str :=
  bs.foldr (fun b acc => hexDigit (b / 16) :: hexDigit (b % 16) :: acc) []

/-! ## Checksum verifier (`verifySHA256`, version.go lines 298-312) -/

inductive VerifyErr
  | openFailed (file : Str)
  | mismatch (file : Str) (wantHex : Str)
  deriving DecidableEq

/-- Model of `verifySHA256`: hash the file contents, render the digest in
lowercase hex with %x, and compare that string to `wantHex` for exact
equality.  The mismatch error carries exactly the data the Go error
message interpolates: the file name and the expected digest. -/
def verifySHA256 (fs : FS) (file : Str) (wantHex : Str) : Except VerifyErr Unit :=
  match fsGet fs file with
  | none => .error (.openFailed file)
  | some contents =>
    if hexEncode (sha256 contents) ≠ wantHex then .error (.mismatch file wantHex)
    else .ok ()

/-! ## Path helpers -/

/-- Path join, modelled as separator concatenation (the joined names in
this pipeline contain no dot segments to clean; traversal segments coming
from archive entries are preserved verbatim and interpreted by
`resolveSegs` below). -/
def joinP (a b : Str) : Str := a ++ '/' :: b

def splitOnSlash (s : Str) : List Str :=
  s.foldr (fun ch acc =>
    match acc with
    | [] => [[ch]]
    | g :: gs => if ch = '/' then [] :: g :: gs else (ch :: g) :: gs) [[]]

/-- Model of path.Base: the last slash-separated segment. -/
def pathBase (s : Str) : Str := (splitOnSlash s).getLastD s

/-- Lexical resolution of a relative path, the way the OS resolves the
dot-dot segments of a path when a file is created: empty and dot segments
vanish, a dot-dot pops the previous segment. -/
def resolveSegs (segs : List Str) : List Str :=
  segs.foldl (fun acc seg =>
    if seg = [] ∨ seg = ['.'] then acc
    else if seg = ['.', '.'] then
      if acc ≠ [] ∧ acc.getLast? ≠ some ['.', '.'] then acc.dropLast else acc ++ [seg]
    else acc ++ [seg]) []

/-- A created path escapes `dir` when its resolved form is not below the
resolved form of `dir`. -/
def escapesDir (dir p : Str) : Bool :=
  !(decide (resolveSegs (splitOnSlash dir) <+: resolveSegs (splitOnSlash p)))

def trimPref (pre s : Str) : Str :=
  if pre <+: s then s.drop pre.length else s

def endsWith (suf s : Str) : Bool := decide (suf <:+ s)

def goSlash : Str := ("go/").toList

def zipExt : Str := (".zip").toList

def targzExt : Str := (".tar.gz").toList

/-! ## Archive unpacker (version.go lines 160-294) -/

/-- version.go lines 485-490. -/
def validRelPath (p : Str) : Bool :=
  !(decide (p = []) || p.contains '\\' || decide (['/'] <+: p) ||
    decide ((("../").toList) <:+: p))

inductive TarType
  | reg
  | dir
  | other
  deriving DecidableEq

structure TarEntry where
  name : Str
  typ : TarType
  size : Nat
  contents : Bytes
  deriving DecidableEq

structure ZipEntry where
  name : Str
  isDir : Bool
  contents : Bytes
  deriving DecidableEq

inductive UnpackErr
  | invalidName (name : Str)
  | shortWrite (wrote : Nat) (abs : Str) (expected : Nat)
  | unsupportedType (name : Str)
  | unsupportedFormat
  deriving DecidableEq

/-- Loop of `unpackTarGz`: every entry name is checked with
`validRelPath` before the `go/` prefix is stripped and the name joined
below the target directory.  Directory creation, permission bits and
modification times are not tracked by the filesystem model. -/
def unpackTarLoop (targetDir : Str) : List TarEntry → FS → Except UnpackErr Unit × FS
  | [], fs => (.ok (), fs)
  | e :: rest, fs =>
    if !validRelPath e.name then (.error (.invalidName e.name), fs)
    else
      let rel := trimPref goSlash e.name
      let abs := joinP targetDir rel
      match e.typ with
      | .reg =>
        let fs1 := fsSet fs abs e.contents
        if e.contents.length ≠ e.size then
          (.error (.shortWrite e.contents.length abs e.size), fs1)
        else unpackTarLoop targetDir rest fs1
      | .dir => unpackTarLoop targetDir rest fs
      | .other => (.error (.unsupportedType e.name), fs)

/-- Loop of `unpackZip`: the `go/` prefix is stripped and the name joined
below the target directory; no name validation of any kind is performed
(the source never calls `validRelPath` here). -/
def unpackZipLoop (targetDir : Str) : List ZipEntry → FS → Except UnpackErr Unit × FS
  | [], fs => (.ok (), fs)
  | e :: rest, fs =>
    let name := trimPref goSlash e.name
    let outpath := joinP targetDir name
    if e.isDir then unpackZipLoop targetDir rest fs
    else unpackZipLoop targetDir rest (fsSet fs outpath e.contents)

/-- `unpackArchive`: dispatch on the file-name suffix.  The parsed entry
lists stand for the decoded contents of the archive file. -/
def unpackArchive (targetDir archiveFile : Str) (tarEntries : List TarEntry)
    (zipEntries : List ZipEntry) (fs : FS) : Except UnpackErr Unit × FS :=
  if endsWith zipExt archiveFile then unpackZipLoop targetDir zipEntries fs
  else if endsWith targzExt archiveFile then unpackTarLoop targetDir tarEntries fs
  else (.error .unsupportedFormat, fs)

/-! ## Fetcher and installer (version.go lines 104-158 and 332-370) -/

structure HeadResp where
  status : Nat
  contentLength : Int
  deriving DecidableEq

structure GetResp where
  status : Nat
  contentLength : Int
  body : Bytes
  deriving DecidableEq

inductive CopyErr
  | requestFailed
  | badStatus (status : Nat)
  | shortRead (copied : Nat) (expected : Int)
  deriving DecidableEq

/-- Model of `copyFromURL`: create (truncate) the destination, fetch the
body, compare the delivered byte count with the response content length;
on any failure the deferred cleanup closes and removes the destination. -/
def copyFromURL (fs : FS) (resp : Option GetResp) (dstFile : Str) : Except CopyErr Unit × FS :=
  let fs1 := fsSet fs dstFile []
  match resp with
  | none => (.error .requestFailed, fsRemove fs1 dstFile)
  | some g =>
    if g.status ≠ 200 then (.error (.badStatus g.status), fsRemove fs1 dstFile)
    else
      let fs2 := fsSet fs1 dstFile g.body
      if g.contentLength ≠ -1 ∧ g.contentLength ≠ (g.body.length : Int) then
        (.error (.shortRead g.body.length g.contentLength), fsRemove fs2 dstFile)
      else (.ok (), fs2)

def isSpaceByte (c : Char) : Bool :=
  decide (c.toNat = 32 ∨ c.toNat = 9 ∨ c.toNat = 10 ∨ c.toNat = 13)

def trimSpace (s : Str) : Str :=
  ((s.dropWhile isSpaceByte).reverse.dropWhile isSpaceByte).reverse

def windowsStr : Str := ("windows").toList

def linuxStr : Str := ("linux").toList

def armStr : Str := ("arm").toList

def armv6lStr : Str := ("armv6l").toList

def dlBase : Str := ("https://dl.google.com/go/").toList

/-- version.go lines 422-434. -/
def versionArchiveURL (goos goarch version : Str) : Str :=
  let ext := if goos = windowsStr then zipExt else targzExt
  let arch := if goos = linuxStr ∧ goarch = armStr then armv6lStr else goarch
  dlBase ++ version ++ '.' :: (goos ++ '-' :: (arch ++ ext))

/-- Sentinel marker file name (version.go line 440). -/
def unpackedOkay : Str := (".unpacked-success").toList

/-- World a single `install` run interacts with: the filesystem, the
responses the three HTTP operations would deliver, and the decoded entry
lists of the archive body. -/
structure World where
  fs : FS
  goos : Str
  goarch : Str
  headResp : Option HeadResp
  getResp : Option GetResp
  shaResp : Option (Nat × Str)
  tarEntries : List TarEntry
  zipEntries : List ZipEntry

inductive Ev
  | logAlready
  | mkdirAll
  | netHead
  | netGet
  | netSha
  | verifyChecksum
  | logUnpacking
  | unpackArchiveEv
  | writeSentinel
  | logSuccess
  deriving DecidableEq

inductive InstallErr
  | headFailed
  | noBinaryRelease
  | serverStatus (status : Nat)
  | downloadFailed (e : CopyErr)
  | statFailed
  | sizeMismatch (got : Nat) (want : Int)
  | shaFetchFailed
  | checksumFailed (e : VerifyErr)
  | unpackFailed (e : UnpackErr)
  deriving DecidableEq

structure InstallOut where
  result : Except InstallErr Unit
  fs : FS
  evs : List Ev

/-- Download-or-reuse step of `install` (version.go lines 124-141): after
`copyFromURL` the archive is re-statted and its size compared with the
HEAD content length. -/
def installFetch (r : HeadResp) (getResp : Option GetResp) (fs : FS)
    (archiveFile : Str) : Except InstallErr Unit × FS × List Ev :=
  match copyFromURL fs getResp archiveFile with
  | (.error e, fs1) => (.error (.downloadFailed e), fs1, [.netGet])
  | (.ok _, fs1) =>
    match fsGet fs1 archiveFile with
    | none => (.error .statFailed, fs1, [.netGet])
    | some c =>
      if (c.length : Int) ≠ r.contentLength then
        (.error (.sizeMismatch c.length r.contentLength), fs1, [.netGet])
      else (.ok (), fs1, [.netGet])

/-- The archive is reused exactly when it exists and its size equals the
HEAD content length; otherwise it is fetched. -/
def installDownload (r : HeadResp) (getResp : Option GetResp) (fs : FS)
    (archiveFile : Str) : Except InstallErr Unit × FS × List Ev :=
  match fsGet fs archiveFile with
  | some c =>
    if (c.length : Int) = r.contentLength then (.ok (), fs, [])
    else installFetch r getResp fs archiveFile
  | none => installFetch r getResp fs archiveFile

/-- Sidecar digest fetch plus checksum verification (version.go lines
142-148): `slurpURLToString` demands status 200, the digest text is
whitespace-trimmed and passed to `verifySHA256`. -/
def installVerify (shaResp : Option (Nat × Str)) (fs : FS) (archiveFile : Str) :
    Except InstallErr Unit × List Ev :=
  match shaResp with
  | none => (.error .shaFetchFailed, [.netSha])
  | some (st, text) =>
    if st ≠ 200 then (.error .shaFetchFailed, [.netSha])
    else
      match verifySHA256 fs archiveFile (trimSpace text) with
      | .error e => (.error (.checksumFailed e), [.netSha, .verifyChecksum])
      | .ok _ => (.ok (), [.netSha, .verifyChecksum])

/-- Model of `install` (version.go lines 104-158).  The produced event
list records the observable actions in order; the sentinel file is
written only on the final line of the success path. -/
def archivePath (w : World) (targetDir version : Str) : Str :=
  joinP targetDir (pathBase (versionArchiveURL w.goos w.goarch version))

def install (w : World) (targetDir version : Str) : InstallOut :=
  if (fsGet w.fs (joinP targetDir unpackedOkay)).isSome then
    ⟨.ok (), w.fs, [.logAlready]⟩
  else
    match w.headResp with
    | none => ⟨.error .headFailed, w.fs, [.mkdirAll, .netHead]⟩
    | some r =>
      if r.status = 404 then ⟨.error .noBinaryRelease, w.fs, [.mkdirAll, .netHead]⟩
      else if r.status ≠ 200 then ⟨.error (.serverStatus r.status), w.fs, [.mkdirAll, .netHead]⟩
      else
        match installDownload r w.getResp w.fs (archivePath w targetDir version) with
        | (.error e, fs1, dlEvs) => ⟨.error e, fs1, [.mkdirAll, .netHead] ++ dlEvs⟩
        | (.ok _, fs1, dlEvs) =>
          match installVerify w.shaResp fs1 (archivePath w targetDir version) with
          | (.error e, vEvs) => ⟨.error e, fs1, [.mkdirAll, .netHead] ++ dlEvs ++ vEvs⟩
          | (.ok _, vEvs) =>
            match unpackArchive targetDir (archivePath w targetDir version) w.tarEntries w.zipEntries fs1 with
            | (.error e, fs2) =>
              ⟨.error (.unpackFailed e), fs2,
                [.mkdirAll, .netHead] ++ dlEvs ++ vEvs ++ [.logUnpacking, .unpackArchiveEv]⟩
            | (.ok _, fs2) =>
              ⟨.ok (), fsSet fs2 (joinP targetDir unpackedOkay) [],
                [.mkdirAll, .netHead] ++ dlEvs ++ vEvs
                  ++ [.logUnpacking, .unpackArchiveEv, .writeSentinel, .logSuccess]⟩

/-! ## Process delegator (`runGo`, version.go lines 57-78) -/

inductive ChildStatus
  | exited (code : Int)
  | signaled
  | startFailed
  deriving DecidableEq

inductive RunErr
  | exitError (code : Int)
  | otherError
  deriving DecidableEq

/-- Outcome of `cmd.Run()` as `runGo` observes it: a child that ran and
exited zero yields no error; nonzero exit or signal termination yields an
exec.ExitError whose ExitCode is the exit code, or -1 for a signal
(Go standard library semantics); a child that could not be started yields
some other error. -/
def cmdRun : ChildStatus → Option RunErr
  | .exited c => if c = 0 then none else some (.exitError c)
  | .signaled => some (.exitError (-1))
  | .startFailed => some .otherError

/-- Exit-status translation at the end of `runGo` (version.go 71-77). -/
def runGoExit : Option RunErr → Int
  | some (.exitError c) => c
  | some .otherError => 1
  | none => 0

def wrapperExit (s : ChildStatus) : Int := runGoExit (cmdRun s)

/-- PATH entry construction of `runGo` (version.go 57-67): the bin
directory of the installation, then, only when the inherited PATH is
nonempty, the list separator and the inherited value. -/
def newPath (listSep : Char) (root pathEnv : Str) : Str :=
  if pathEnv ≠ [] then joinP root (("bin").toList) ++ listSep :: pathEnv
  else joinP root (("bin").toList)

end GoDL

namespace GoDL

theorem lookupIdx_shift (saw : List (Str × Nat)) (k : Str) :
    lookupIdx (saw.map (fun p => (p.1, p.2 + 1))) k = (lookupIdx saw k).map (· + 1) := by
  induction saw with
  | nil => rfl
  | cons p rest ih =>
    obtain ⟨k0, i0⟩ := p
    by_cases h : k = k0 <;> simp [lookupIdx, h, ih]

theorem lastWithKey_cons_ne (ci : Bool) (k : Str) (e : Str) (rest : List Str)
    (h : entryKey ci e ≠ some k) :
    lastWithKey ci k (e :: rest) = lastWithKey ci k rest := by
  rw [lastWithKey]
  cases lastWithKey ci k rest <;> simp [h]

theorem lastWithKey_cons_eq (ci : Bool) (k : Str) (e : Str) (rest : List Str)
    (h : entryKey ci e = some k) :
    lastWithKey ci k (e :: rest) = some ((lastWithKey ci k rest).getD e) := by
  rw [lastWithKey]
  cases lastWithKey ci k rest <;> simp [h]

theorem eraseKey_cons_ne (ci : Bool) (k : Str) (e : Str) (rest : List Str)
    (h : entryKey ci e ≠ some k) :
    eraseKey ci k (e :: rest) = e :: eraseKey ci k rest := by
  simp [eraseKey, List.filter_cons, h]

theorem eraseKey_cons_eq (ci : Bool) (k : Str) (e : Str) (rest : List Str)
    (h : entryKey ci e = some k) :
    eraseKey ci k (e :: rest) = eraseKey ci k rest := by
  simp [eraseKey, List.filter_cons, h]

theorem dedupLoop_cons_out (ci : Bool) (env : List Str) (w : Str) (out : List Str)
    (saw : List (Str × Nat)) :
    dedupLoop ci env (w :: out) (saw.map (fun p => (p.1, p.2 + 1))) =
      w :: dedupLoop ci env out saw := by
  induction env generalizing out saw with
  | nil => rfl
  | cons kv rest ih =>
    cases hk : entryKey ci kv with
    | none =>
      simp only [dedupLoop, hk]
      exact ih (out ++ [kv]) saw
    | some k =>
      simp only [dedupLoop, hk, lookupIdx_shift]
      cases hl : lookupIdx saw k with
      | some i =>
        simp only [Option.map_some']
        exact ih (out.set i kv) saw
      | none =>
        simp only [Option.map_none']
        have hsaw : ((k, (w :: out).length) :: saw.map (fun p => (p.1, p.2 + 1)))
            = (((k, out.length) :: saw).map (fun p => (p.1, p.2 + 1))) := by
          simp
        rw [show ((w :: out) ++ [kv]) = w :: (out ++ [kv]) from rfl, hsaw]
        exact ih (out ++ [kv]) ((k, out.length) :: saw)

theorem dedupLoop_congr (ci : Bool) (env : List Str) :
    ∀ (out : List Str) (saw1 saw2 : List (Str × Nat)),
    (∀ e ∈ env, ∀ k, entryKey ci e = some k → lookupIdx saw1 k = lookupIdx saw2 k) →
    dedupLoop ci env out saw1 = dedupLoop ci env out saw2 := by
  induction env with
  | nil => intro out saw1 saw2 _; rfl
  | cons e rest ih =>
    intro out saw1 saw2 h
    cases hk : entryKey ci e with
    | none =>
      simp only [dedupLoop, hk]
      exact ih _ _ _ (fun e' he' k' hk' => h e' (List.mem_cons_of_mem _ he') k' hk')
    | some k =>
      have hkk := h e (List.mem_cons_self _ _) k hk
      simp only [dedupLoop, hk, hkk]
      cases hl : lookupIdx saw2 k with
      | some i =>
        exact ih _ _ _ (fun e' he' k' hk' => h e' (List.mem_cons_of_mem _ he') k' hk')
      | none =>
        refine ih _ _ _ (fun e' he' k' hk' => ?_)
        by_cases hk2 : k' = k
        · subst hk2; simp [lookupIdx]
        · simp only [lookupIdx, if_neg hk2]
          exact h e' (List.mem_cons_of_mem _ he') k' hk'

theorem dedupLoop_slot (ci : Bool) (k : Str) (env : List Str) :
    ∀ (out1 : List Str) (kv : Str) (out2 : List Str) (saw : List (Str × Nat)),
    lookupIdx saw k = some out1.length →
    (∀ k2, k2 ≠ k → ∀ i, lookupIdx saw k2 = some i → i ≠ out1.length) →
    dedupLoop ci env (out1 ++ kv :: out2) saw =
      dedupLoop ci (eraseKey ci k env) (out1 ++ ((lastWithKey ci k env).getD kv) :: out2) saw := by
  induction env with
  | nil =>
    intro out1 kv out2 saw _ _
    simp [dedupLoop, eraseKey, lastWithKey]
  | cons e rest ih =>
    intro out1 kv out2 saw hk hother
    cases hke : entryKey ci e with
    | none =>
      rw [eraseKey_cons_ne ci k e rest (by simp [hke]),
        lastWithKey_cons_ne ci k e rest (by simp [hke])]
      simp only [dedupLoop, hke]
      rw [show (out1 ++ kv :: out2) ++ [e] = out1 ++ kv :: (out2 ++ [e]) by simp,
        show (out1 ++ (lastWithKey ci k rest).getD kv :: out2) ++ [e]
          = out1 ++ (lastWithKey ci k rest).getD kv :: (out2 ++ [e]) by simp]
      exact ih out1 kv (out2 ++ [e]) saw hk hother
    | some k2 =>
      by_cases hkk : k2 = k
      · subst hkk
        rw [eraseKey_cons_eq ci k2 e rest hke, lastWithKey_cons_eq ci k2 e rest hke]
        simp only [dedupLoop, hke, hk]
        rw [List.set_append, if_neg (lt_irrefl _), Nat.sub_self, List.set_cons_zero,
          Option.getD_some]
        exact ih out1 e out2 saw hk hother
      · rw [eraseKey_cons_ne ci k e rest (by simp [hke, hkk]),
          lastWithKey_cons_ne ci k e rest (by simp [hke, hkk])]
        cases hl : lookupIdx saw k2 with
        | some i =>
          have hi : i ≠ out1.length := hother k2 hkk i hl
          simp only [dedupLoop, hke, hl]
          by_cases hlt : i < out1.length
          · rw [List.set_append, if_pos hlt, List.set_append, if_pos hlt]
            have hlen : (out1.set i e).length = out1.length := List.length_set out1 i e
            exact ih (out1.set i e) kv out2 saw (by rw [hlen]; exact hk)
              (by intro k3 h3 j hj; rw [hlen]; exact hother k3 h3 j hj)
          · have hgt : out1.length < i := by omega
            rw [List.set_append, if_neg (by omega), List.set_append, if_neg (by omega)]
            obtain ⟨m, hm⟩ : ∃ m, i - out1.length = m + 1 := ⟨i - out1.length - 1, by omega⟩
            rw [hm, List.set_cons_succ, List.set_cons_succ]
            exact ih out1 kv (out2.set m e) saw hk hother
        | none =>
          have hkne : k ≠ k2 := by
            intro h
            rw [h, hl] at hk
            cases hk
          simp only [dedupLoop, hke, hl]
          rw [show (out1 ++ kv :: out2) ++ [e] = out1 ++ kv :: (out2 ++ [e]) by simp,
            show (out1 ++ (lastWithKey ci k rest).getD kv :: out2) ++ [e]
              = out1 ++ (lastWithKey ci k rest).getD kv :: (out2 ++ [e]) by simp]
          have hlen2 : (out1 ++ kv :: out2).length
              = (out1 ++ (lastWithKey ci k rest).getD kv :: out2).length := by simp
          rw [← hlen2]
          refine ih out1 kv (out2 ++ [e]) ((k2, (out1 ++ kv :: out2).length) :: saw) ?_ ?_
          · simp only [lookupIdx, if_neg hkne]
            exact hk
          · intro k3 h3 j hj
            by_cases h32 : k3 = k2
            · subst h32
              simp only [lookupIdx, if_pos rfl] at hj
              cases hj
              simp only [List.length_append, List.length_cons]
              omega
            · simp only [lookupIdx, if_neg h32] at hj
              exact hother k3 h3 j hj

theorem dedupLoop_eq_specDedup (ci : Bool) :
    ∀ (n : Nat) (env : List Str), env.length ≤ n →
    dedupLoop ci env [] [] = specDedup ci env := by
  intro n
  induction n with
  | zero =>
    intro env h
    have hnil : env = [] := List.eq_nil_of_length_eq_zero (Nat.le_zero.mp h)
    subst hnil
    rw [specDedup]
    rfl
  | succ n ih =>
    intro env h
    cases env with
    | nil =>
      rw [specDedup]
      rfl
    | cons kv rest =>
      cases hk : entryKey ci kv with
      | none =>
        have h1 : dedupLoop ci (kv :: rest) [] [] = dedupLoop ci rest [kv] [] := by
          simp only [dedupLoop, hk]
          rfl
        have h2 : dedupLoop ci rest [kv] [] = kv :: dedupLoop ci rest [] [] := by
          simpa using dedupLoop_cons_out ci rest kv [] []
        rw [h1, h2, ih rest (by simpa using Nat.le_of_succ_le_succ h)]
        conv_rhs => rw [specDedup]
        rw [hk]
      | some k =>
        have h1 : dedupLoop ci (kv :: rest) [] [] = dedupLoop ci rest [kv] [(k, 0)] := by
          simp only [dedupLoop, hk, lookupIdx]
          rfl
        have h2 := dedupLoop_slot ci k rest [] kv [] [(k, 0)]
          (by simp [lookupIdx])
          (by intro k2 hne i hi; simp [lookupIdx, hne] at hi)
        have h3 : dedupLoop ci (eraseKey ci k rest) [(lastWithKey ci k rest).getD kv] [(k, 0)]
            = dedupLoop ci (eraseKey ci k rest) [(lastWithKey ci k rest).getD kv] [] := by
          apply dedupLoop_congr
          intro e he k3 hk3
          have hmem : entryKey ci e ≠ some k := by
            simpa using List.of_mem_filter he
          have hne : k3 ≠ k := fun hh => by subst hh; exact hmem hk3
          simp [lookupIdx, hne]
        have h4 : dedupLoop ci (eraseKey ci k rest) [(lastWithKey ci k rest).getD kv] []
            = (lastWithKey ci k rest).getD kv :: dedupLoop ci (eraseKey ci k rest) [] [] := by
          simpa using dedupLoop_cons_out ci (eraseKey ci k rest) ((lastWithKey ci k rest).getD kv) [] []
        have hlen : (eraseKey ci k rest).length ≤ n := by
          have h5 : (eraseKey ci k rest).length ≤ rest.length := List.length_filter_le _ _
          have h6 : rest.length ≤ n := by simpa using Nat.le_of_succ_le_succ h
          omega
        rw [h1]
        rw [show ([kv] : List Str) = [] ++ kv :: [] from rfl]
        rw [h2]
        simp only [List.nil_append]
        rw [h3, h4, ih (eraseKey ci k rest) hlen]
        conv_rhs => rw [specDedup]
        rw [hk]

theorem dedupEnv_eq_specDedup (ci : Bool) (env : List Str) :
    dedupEnv ci env = specDedup ci env :=
  dedupLoop_eq_specDedup ci env.length env (le_refl _)

theorem specDedup_cons_none (ci : Bool) (kv : Str) (rest : List Str)
    (hk : entryKey ci kv = none) :
    specDedup ci (kv :: rest) = kv :: specDedup ci rest := by
  rw [specDedup, hk]

theorem specDedup_cons_some (ci : Bool) (kv : Str) (rest : List Str) (k : Str)
    (hk : entryKey ci kv = some k) :
    specDedup ci (kv :: rest)
      = ((lastWithKey ci k rest).getD kv) :: specDedup ci (eraseKey ci k rest) := by
  rw [specDedup, hk]

theorem entryKey_of_lastWithKey (ci : Bool) (k : Str) (env : List Str) :
    ∀ w, lastWithKey ci k env = some w → entryKey ci w = some k := by
  induction env with
  | nil => intro w h; cases h
  | cons e rest ih =>
    intro w h
    by_cases hk : entryKey ci e = some k
    · rw [lastWithKey_cons_eq ci k e rest hk] at h
      injection h with h2
      subst h2
      cases hl : lastWithKey ci k rest with
      | some w0 =>
        simp only [hl, Option.getD_some]
        exact ih w0 hl
      | none =>
        simp only [hl, Option.getD_none]
        exact hk
    · rw [lastWithKey_cons_ne ci k e rest hk] at h
      exact ih w h

theorem lastWithKey_eraseKey_ne (ci : Bool) (k k0 : Str) (hne : k ≠ k0) (env : List Str) :
    lastWithKey ci k (eraseKey ci k0 env) = lastWithKey ci k env := by
  induction env with
  | nil => rfl
  | cons e rest ih =>
    by_cases hk : entryKey ci e = some k0
    · have hek : entryKey ci e ≠ some k := by
        rw [hk]
        intro hcon
        injection hcon with h2
        exact hne h2.symm
      rw [eraseKey_cons_eq ci k0 e rest hk, ih, lastWithKey_cons_ne ci k e rest hek]
    · rw [eraseKey_cons_ne ci k0 e rest hk]
      by_cases hek : entryKey ci e = some k
      · rw [lastWithKey_cons_eq ci k e (eraseKey ci k0 rest) hek,
          lastWithKey_cons_eq ci k e rest hek, ih]
      · rw [lastWithKey_cons_ne ci k e (eraseKey ci k0 rest) hek,
          lastWithKey_cons_ne ci k e rest hek, ih]

theorem lastWithKey_eraseKey_self (ci : Bool) (k : Str) (env : List Str) :
    lastWithKey ci k (eraseKey ci k env) = none := by
  induction env with
  | nil => rfl
  | cons e rest ih =>
    by_cases hk : entryKey ci e = some k
    · rw [eraseKey_cons_eq ci k e rest hk]
      exact ih
    · rw [eraseKey_cons_ne ci k e rest hk, lastWithKey_cons_ne ci k e (eraseKey ci k rest) hk]
      exact ih

theorem eraseKey_filter_malformed (ci : Bool) (k0 : Str) (env : List Str) :
    (eraseKey ci k0 env).filter (fun kv => decide (entryKey ci kv = none))
      = env.filter (fun kv => decide (entryKey ci kv = none)) := by
  induction env with
  | nil => rfl
  | cons e rest ih =>
    by_cases hk : entryKey ci e = some k0
    · rw [eraseKey_cons_eq ci k0 e rest hk, ih, List.filter_cons, if_neg (by simp [hk])]
    · rw [eraseKey_cons_ne ci k0 e rest hk, List.filter_cons, List.filter_cons]
      by_cases hm : entryKey ci e = none
      · rw [if_pos (by simp [hm]), if_pos (by simp [hm]), ih]
      · rw [if_neg (by simp [hm]), if_neg (by simp [hm]), ih]

theorem specDedup_filter_key (ci : Bool) (k : Str) :
    ∀ (n : Nat) (env : List Str), env.length ≤ n →
    (specDedup ci env).filter (fun kv => decide (entryKey ci kv = some k))
      = (lastWithKey ci k env).toList := by
  intro n
  induction n with
  | zero =>
    intro env h
    have hnil : env = [] := List.eq_nil_of_length_eq_zero (Nat.le_zero.mp h)
    subst hnil
    rw [specDedup]
    rfl
  | succ n ih =>
    intro env h
    cases env with
    | nil =>
      rw [specDedup]
      rfl
    | cons kv rest =>
      have hlen : rest.length ≤ n := by
        simpa using Nat.le_of_succ_le_succ h
      cases hk : entryKey ci kv with
      | none =>
        rw [specDedup_cons_none ci kv rest hk, List.filter_cons, if_neg (by simp [hk]),
          ih rest hlen, lastWithKey_cons_ne ci k kv rest (by simp [hk])]
      | some k0 =>
        have hlen2 : (eraseKey ci k0 rest).length ≤ n := by
          have h5 : (eraseKey ci k0 rest).length ≤ rest.length :=
            List.length_filter_le (fun kv => decide (entryKey ci kv ≠ some k0)) rest
          omega
        rw [specDedup_cons_some ci kv rest k0 hk, List.filter_cons]
        have hw : entryKey ci ((lastWithKey ci k0 rest).getD kv) = some k0 := by
          cases hl : lastWithKey ci k0 rest with
          | some w0 =>
            simp only [hl, Option.getD_some]
            exact entryKey_of_lastWithKey ci k0 rest w0 hl
          | none =>
            simp only [hl, Option.getD_none]
            exact hk
        by_cases hkk : k0 = k
        · subst hkk
          rw [if_pos (by simp [hw]), ih (eraseKey ci k0 rest) hlen2,
            lastWithKey_eraseKey_self ci k0 rest, lastWithKey_cons_eq ci k0 kv rest hk]
          rfl
        · rw [if_neg (by simp [hw, hkk]), ih (eraseKey ci k0 rest) hlen2,
            lastWithKey_eraseKey_ne ci k k0 (fun hcon => hkk hcon.symm) rest,
            lastWithKey_cons_ne ci k kv rest (by simp [hk, hkk])]

theorem specDedup_filter_malformed (ci : Bool) :
    ∀ (n : Nat) (env : List Str), env.length ≤ n →
    (specDedup ci env).filter (fun kv => decide (entryKey ci kv = none))
      = env.filter (fun kv => decide (entryKey ci kv = none)) := by
  intro n
  induction n with
  | zero =>
    intro env h
    have hnil : env = [] := List.eq_nil_of_length_eq_zero (Nat.le_zero.mp h)
    subst hnil
    rw [specDedup]
  | succ n ih =>
    intro env h
    cases env with
    | nil =>
      rw [specDedup]
    | cons kv rest =>
      have hlen : rest.length ≤ n := by
        simpa using Nat.le_of_succ_le_succ h
      cases hk : entryKey ci kv with
      | none =>
        rw [specDedup_cons_none ci kv rest hk, List.filter_cons, if_pos (by simp [hk]),
          List.filter_cons, if_pos (by simp [hk]), ih rest hlen]
      | some k0 =>
        have hlen2 : (eraseKey ci k0 rest).length ≤ n := by
          have h5 : (eraseKey ci k0 rest).length ≤ rest.length :=
            List.length_filter_le (fun kv => decide (entryKey ci kv ≠ some k0)) rest
          omega
        rw [specDedup_cons_some ci kv rest k0 hk, List.filter_cons]
        have hw : entryKey ci ((lastWithKey ci k0 rest).getD kv) = some k0 := by
          cases hl : lastWithKey ci k0 rest with
          | some w0 =>
            simp only [hl, Option.getD_some]
            exact entryKey_of_lastWithKey ci k0 rest w0 hl
          | none =>
            simp only [hl, Option.getD_none]
            exact hk
        rw [if_neg (by simp [hw]), ih (eraseKey ci k0 rest) hlen2,
          eraseKey_filter_malformed ci k0 rest, List.filter_cons, if_neg (by simp [hk])]

/-! ## Claim theorems -/

/-- C7: after the delegated child terminates, an explicit child exit code
is propagated verbatim (signal termination surfaces as the ExitError code
-1, which is a non-zero generic failure), a child that failed to run
yields the generic non-zero code 1, and a child that ran and succeeded
yields exit code 0. -/
theorem runGo_exit_translation (s : ChildStatus) :
    (∀ c, s = .exited c → wrapperExit s = c) ∧
    ((s = .signaled ∨ s = .startFailed) → wrapperExit s ≠ 0) ∧
    (s = .exited 0 → wrapperExit s = 0) := by
  refine ⟨?_, ?_, ?_⟩
  · intro c hc
    subst hc
    by_cases h0 : c = 0
    · subst h0
      rfl
    · simp [wrapperExit, cmdRun, runGoExit, h0]
  · intro hs
    cases hs with
    | inl h => subst h; decide
    | inr h => subst h; decide
  · intro h
    subst h
    rfl

/-- Witness for the exit-code translation at concrete child statuses. -/
theorem runGo_exit_translation_witness :
    wrapperExit (.exited 7) = 7 ∧ wrapperExit .signaled ≠ 0 ∧ wrapperExit (.exited 0) = 0 :=
  ⟨(runGo_exit_translation (.exited 7)).1 7 rfl,
   (runGo_exit_translation .signaled).2.1 (Or.inl rfl),
   (runGo_exit_translation (.exited 0)).2.2 rfl⟩

/-- C10: the PATH entry handed to the delegate is exactly the
installation's bin directory when the inherited PATH is empty or unset,
and otherwise the bin directory, one list separator, and the inherited
value. -/
theorem runGo_path_construction (sep : Char) (root pathEnv : Str) :
    (pathEnv = [] → newPath sep root pathEnv = joinP root (("bin").toList)) ∧
    (pathEnv ≠ [] →
      newPath sep root pathEnv = joinP root (("bin").toList) ++ sep :: pathEnv) := by
  constructor
  · intro h
    simp [newPath, h]
  · intro h
    simp [newPath, h]

/-- Witness for the PATH construction on an empty and a nonempty PATH. -/
theorem runGo_path_construction_witness :
    newPath ':' (("r").toList) [] = joinP (("r").toList) (("bin").toList) ∧
    newPath ':' (("r").toList) (("p").toList)
      = joinP (("r").toList) (("bin").toList) ++ ':' :: (("p").toList) :=
  ⟨(runGo_path_construction ':' (("r").toList) []).1 rfl,
   (runGo_path_construction ':' (("r").toList) (("p").toList)).2 (by decide)⟩

/-- C2 counterexample: for the empty file the expected digest written in
uppercase hex matches the computed digest up to letter case, yet
verifySHA256 rejects it: the comparison is exact, not case-insensitive. -/
theorem verifySHA256_not_case_insensitive :
    ((hexEncode (sha256 [])).map Char.toLower
        = ((hexEncode (sha256 [])).map Char.toUpper).map Char.toLower) ∧
    verifySHA256 [((("f").toList), [])] (("f").toList)
        ((hexEncode (sha256 [])).map Char.toUpper)
      = .error (.mismatch (("f").toList) ((hexEncode (sha256 [])).map Char.toUpper)) := by
  exact ⟨by decide, by decide⟩

/-- C2 as the code has it: verification succeeds iff the lowercase hex
rendering of the SHA-256 digest of the file contents equals the expected
string exactly (case-sensitively); on mismatch the error carries the file
name and the expected digest. -/
theorem verifySHA256_exact (fs : FS) (file want : Str) (contents : Bytes)
    (hf : fsGet fs file = some contents) :
    (verifySHA256 fs file want = .ok () ↔ hexEncode (sha256 contents) = want) ∧
    (hexEncode (sha256 contents) ≠ want →
      verifySHA256 fs file want = .error (.mismatch file want)) := by
  refine ⟨⟨?_, ?_⟩, ?_⟩
  · intro h
    by_contra hne
    simp [verifySHA256, hf, hne] at h
  · intro h
    simp [verifySHA256, hf, h]
  · intro hne
    simp [verifySHA256, hf, hne]

/-- Witness for the exact checksum comparison on the empty file. -/
theorem verifySHA256_exact_witness :
    fsGet [((("f").toList), ([] : Bytes))] (("f").toList) = some [] ∧
    (verifySHA256 [((("f").toList), [])] (("f").toList) (hexEncode (sha256 []))
        = .ok () ↔ hexEncode (sha256 []) = hexEncode (sha256 [])) :=
  ⟨rfl,
   (verifySHA256_exact [((("f").toList), [])] (("f").toList)
     (hexEncode (sha256 [])) [] rfl).1⟩

/-- C9: whenever the body download fails — request failure, non-200
status, or a delivered byte count differing from the response content
length — copyFromURL removes the destination file before returning, so a
failed download leaves no partial archive behind. -/
theorem copyFromURL_cleanup (fs : FS) (resp : Option GetResp) (dst : Str) (e : CopyErr)
    (h : (copyFromURL fs resp dst).1 = .error e) :
    fsGet (copyFromURL fs resp dst).2 dst = none := by
  revert h
  unfold copyFromURL
  cases resp with
  | none =>
    intro _
    simp
  | some g =>
    by_cases hs : g.status ≠ 200
    · intro _
      simp [hs]
    · by_cases hc : g.contentLength ≠ -1 ∧ g.contentLength ≠ (g.body.length : Int)
      · intro _
        simp [hs, hc]
      · intro h
        simp [hs, hc] at h

/-- Witness for the download cleanup: a failed request deletes the file. -/
theorem copyFromURL_cleanup_witness :
    (copyFromURL [] none (("a").toList)).1 = .error .requestFailed ∧
    fsGet (copyFromURL [] none (("a").toList)).2 (("a").toList) = none :=
  ⟨rfl, copyFromURL_cleanup [] none (("a").toList) .requestFailed rfl⟩

/-- C1 fails on the code: the zip unpacker validates nothing, so a zip
entry named ../pwned is extracted without any UnsafeArchiveEntry error
and the created file resolves outside the target directory — even though
the tar-side validator validRelPath would have rejected this very name. -/
theorem unpackZip_traversal_unchecked :
    (unpackArchive (("t").toList) (("x.zip").toList) []
        [⟨("../pwned").toList, false, [7]⟩] []).1 = .ok () ∧
    fsGet (unpackArchive (("t").toList) (("x.zip").toList) []
        [⟨("../pwned").toList, false, [7]⟩] []).2
        (joinP (("t").toList) (("../pwned").toList)) = some [7] ∧
    escapesDir (("t").toList) (joinP (("t").toList) (("../pwned").toList)) = true ∧
    validRelPath (("../pwned").toList) = false := by
  exact ⟨by decide, by decide, by decide, by decide⟩

theorem installFetch_evs (r : HeadResp) (g : Option GetResp) (fs : FS) (af : Str) :
    (installFetch r g fs af).2.2 = [.netGet] := by
  unfold installFetch
  split
  · rfl
  · split
    · rfl
    · split <;> rfl

theorem installDownload_reuse (r : HeadResp) (g : Option GetResp) (fs : FS) (af : Str)
    (c : Bytes) (hc : fsGet fs af = some c) (hsize : (c.length : Int) = r.contentLength) :
    installDownload r g fs af = (.ok (), fs, []) := by
  unfold installDownload
  rw [hc]
  simp [hsize]

theorem installDownload_fetch (r : HeadResp) (g : Option GetResp) (fs : FS) (af : Str)
    (h : ∀ c, fsGet fs af = some c → (c.length : Int) ≠ r.contentLength) :
    installDownload r g fs af = installFetch r g fs af := by
  unfold installDownload
  cases hc : fsGet fs af with
  | none => rfl
  | some c => simp [h c hc]

theorem installDownload_evs (r : HeadResp) (g : Option GetResp) (fs : FS) (af : Str) :
    (installDownload r g fs af).2.2 = [] ∨ (installDownload r g fs af).2.2 = [.netGet] := by
  unfold installDownload
  cases hc : fsGet fs af with
  | none => right; exact installFetch_evs r g fs af
  | some c =>
    by_cases hs : (c.length : Int) = r.contentLength
    · left
      simp [hs]
    · right
      simpa [hs] using installFetch_evs r g fs af

theorem ev_not_in_download (r : HeadResp) (g : Option GetResp) (fs : FS) (af : Str)
    (x : Ev) (hx : x ≠ Ev.netGet) : x ∉ (installDownload r g fs af).2.2 := by
  rcases installDownload_evs r g fs af with h | h <;> rw [h] <;> simp [hx]

theorem installVerify_evs (s : Option (Nat × Str)) (fs : FS) (af : Str) :
    (installVerify s fs af).2 = [.netSha]
      ∨ (installVerify s fs af).2 = [.netSha, .verifyChecksum] := by
  unfold installVerify
  cases s with
  | none => left; rfl
  | some p =>
    obtain ⟨st, text⟩ := p
    by_cases hs : st ≠ 200
    · left
      simp [hs]
    · cases hv : verifySHA256 fs af (trimSpace text) with
      | error e => right; simp [hs, hv]
      | ok u => right; simp [hs, hv]

theorem ev_not_in_verify (s : Option (Nat × Str)) (fs : FS) (af : Str)
    (x : Ev) (hx1 : x ≠ Ev.netSha) (hx2 : x ≠ Ev.verifyChecksum) :
    x ∉ (installVerify s fs af).2 := by
  rcases installVerify_evs s fs af with h | h <;> rw [h] <;> simp [hx1, hx2]

theorem installVerify_ok_evs (s : Option (Nat × Str)) (fs : FS) (af : Str)
    (h : (installVerify s fs af).1 = .ok ()) :
    (installVerify s fs af).2 = [.netSha, .verifyChecksum] := by
  revert h
  unfold installVerify
  cases s with
  | none =>
    intro h
    simp at h
  | some p =>
    obtain ⟨st, text⟩ := p
    by_cases hs : st ≠ 200
    · intro h
      simp [hs] at h
    · cases hv : verifySHA256 fs af (trimSpace text) with
      | error e =>
        intro h
        simp [hs, hv] at h
      | ok u =>
        intro _
        simp [hs, hv]

theorem install_ok_sentinel (w : World) (targetDir version : Str)
    (h : (install w targetDir version).result = .ok ()) :
    (fsGet (install w targetDir version).fs (joinP targetDir unpackedOkay)).isSome := by
  revert h
  unfold install
  split
  · intro _
    simp_all
  · repeat' split
    all_goals intro h
    all_goals first
      | (exfalso; simp at h; done)
      | simp

theorem install_error_no_sentinel (w : World) (t v : Str) (e : InstallErr)
    (h : (install w t v).result = .error e) :
    Ev.writeSentinel ∉ (install w t v).evs := by
  revert h
  unfold install
  by_cases h0 : (fsGet w.fs (joinP t unpackedOkay)).isSome
  · rw [if_pos h0]
    intro h
    simp at h
  · rw [if_neg h0]
    cases hh : w.headResp with
    | none =>
      intro _
      simp
    | some r =>
      by_cases h404 : r.status = 404
      · simp only [if_pos h404]
        intro _
        simp
      · simp only [if_neg h404]
        by_cases h200 : r.status ≠ 200
        · simp only [if_pos h200]
          intro _
          simp
        · simp only [if_neg h200]
          cases hdl : installDownload r w.getResp w.fs (archivePath w t v) with
          | mk res rest =>
            obtain ⟨fs1, dlEvs⟩ := rest
            have hnd : Ev.writeSentinel ∉ dlEvs := by
              have h1 := ev_not_in_download r w.getResp w.fs (archivePath w t v)
                Ev.writeSentinel (by decide)
              rw [hdl] at h1
              simpa using h1
            cases res with
            | error e2 =>
              intro _
              dsimp only
              simp [hnd]
            | ok u =>
              dsimp only
              cases hv : installVerify w.shaResp fs1 (archivePath w t v) with
              | mk vres vEvs =>
                have hnv : Ev.writeSentinel ∉ vEvs := by
                  have h1 := ev_not_in_verify w.shaResp fs1 (archivePath w t v)
                    Ev.writeSentinel (by decide) (by decide)
                  rw [hv] at h1
                  simpa using h1
                cases vres with
                | error e3 =>
                  intro _
                  dsimp only
                  simp [hnd, hnv]
                | ok u2 =>
                  dsimp only
                  cases hup : unpackArchive t (archivePath w t v) w.tarEntries w.zipEntries fs1 with
                  | mk ures fs2 =>
                    cases ures with
                    | error e4 =>
                      intro _
                      dsimp only
                      simp [hnd, hnv]
                    | ok u3 =>
                      intro h
                      dsimp only at h
                      simp at h

theorem install_sentinel_success (w : World) (t v : Str)
    (hm : Ev.writeSentinel ∈ (install w t v).evs) :
    (install w t v).result = .ok () ∧
    ∃ pre post, (install w t v).evs = pre ++ Ev.writeSentinel :: post ∧
      Ev.netHead ∈ pre ∧ Ev.verifyChecksum ∈ pre ∧ Ev.unpackArchiveEv ∈ pre := by
  revert hm
  unfold install
  by_cases h0 : (fsGet w.fs (joinP t unpackedOkay)).isSome
  · rw [if_pos h0]
    intro hm
    simp at hm
  · rw [if_neg h0]
    cases hh : w.headResp with
    | none =>
      intro hm
      simp at hm
    | some r =>
      by_cases h404 : r.status = 404
      · simp only [if_pos h404]
        intro hm
        simp at hm
      · simp only [if_neg h404]
        by_cases h200 : r.status ≠ 200
        · simp only [if_pos h200]
          intro hm
          simp at hm
        · simp only [if_neg h200]
          cases hdl : installDownload r w.getResp w.fs (archivePath w t v) with
          | mk res rest =>
            obtain ⟨fs1, dlEvs⟩ := rest
            have hnd : Ev.writeSentinel ∉ dlEvs := by
              have h1 := ev_not_in_download r w.getResp w.fs (archivePath w t v)
                Ev.writeSentinel (by decide)
              rw [hdl] at h1
              simpa using h1
            cases res with
            | error e2 =>
              intro hm
              dsimp only at hm
              simp [hnd] at hm
            | ok u =>
              dsimp only
              cases hv : installVerify w.shaResp fs1 (archivePath w t v) with
              | mk vres vEvs =>
                cases vres with
                | error e3 =>
                  have hnv : Ev.writeSentinel ∉ vEvs := by
                    have h1 := ev_not_in_verify w.shaResp fs1 (archivePath w t v)
                      Ev.writeSentinel (by decide) (by decide)
                    rw [hv] at h1
                    simpa using h1
                  intro hm
                  dsimp only at hm
                  simp [hnd, hnv] at hm
                | ok u2 =>
                  have hvE : vEvs = [Ev.netSha, Ev.verifyChecksum] := by
                    have h1 := installVerify_ok_evs w.shaResp fs1 (archivePath w t v)
                      (by rw [hv])
                    rw [hv] at h1
                    simpa using h1
                  subst hvE
                  dsimp only
                  cases hup : unpackArchive t (archivePath w t v) w.tarEntries w.zipEntries fs1 with
                  | mk ures fs2 =>
                    cases ures with
                    | error e4 =>
                      intro hm
                      dsimp only at hm
                      simp [hnd] at hm
                    | ok u3 =>
                      intro _
                      dsimp only
                      refine ⟨rfl,
                        [Ev.mkdirAll, Ev.netHead] ++ dlEvs
                          ++ [Ev.netSha, Ev.verifyChecksum, Ev.logUnpacking, Ev.unpackArchiveEv],
                        [Ev.logSuccess], ?_, ?_, ?_, ?_⟩
                      · simp
                      · simp
                      · simp
                      · simp

/-- C4: the sentinel marker is written only at the very end of a fully
successful run: an install returning an error never emits the
sentinel-write event, and whenever the sentinel-write event occurs the
run succeeded and the probe, checksum-verification and unpack events all
occur strictly before it (download, when not satisfied from the cache,
also precedes, as part of the same prefix). -/
theorem install_sentinel_last (w : World) (targetDir version : Str) :
    (∀ e, (install w targetDir version).result = .error e →
      Ev.writeSentinel ∉ (install w targetDir version).evs) ∧
    (Ev.writeSentinel ∈ (install w targetDir version).evs →
      (install w targetDir version).result = .ok () ∧
      ∃ pre post, (install w targetDir version).evs = pre ++ Ev.writeSentinel :: post ∧
        Ev.netHead ∈ pre ∧ Ev.verifyChecksum ∈ pre ∧ Ev.unpackArchiveEv ∈ pre) :=
  ⟨fun e h => install_error_no_sentinel w targetDir version e h,
   fun hm => install_sentinel_success w targetDir version hm⟩

/-- Witness for C4: a concrete fully successful run (cached empty archive
with the right size, matching sidecar digest, empty tar archive) emits
the sentinel-write event and satisfies the success shape. -/
theorem install_sentinel_last_witness :
    Ev.writeSentinel ∈ (install
      ⟨[((("d/go1.linux-amd64.tar.gz").toList), [])], ("linux").toList, ("amd64").toList,
        some ⟨200, 0⟩, none, some (200, hexEncode (sha256 [])), [], []⟩
      (("d").toList) (("go1").toList)).evs ∧
    ((install
      ⟨[((("d/go1.linux-amd64.tar.gz").toList), [])], ("linux").toList, ("amd64").toList,
        some ⟨200, 0⟩, none, some (200, hexEncode (sha256 [])), [], []⟩
      (("d").toList) (("go1").toList)).result = .ok () ∧
    ∃ pre post, (install
      ⟨[((("d/go1.linux-amd64.tar.gz").toList), [])], ("linux").toList, ("amd64").toList,
        some ⟨200, 0⟩, none, some (200, hexEncode (sha256 [])), [], []⟩
      (("d").toList) (("go1").toList)).evs = pre ++ Ev.writeSentinel :: post ∧
      Ev.netHead ∈ pre ∧ Ev.verifyChecksum ∈ pre ∧ Ev.unpackArchiveEv ∈ pre) :=
  ⟨by decide, (install_sentinel_last _ _ _).2 (by decide)⟩

theorem install_noop (w : World) (t v : Str)
    (h : (fsGet w.fs (joinP t unpackedOkay)).isSome) :
    install w t v = ⟨.ok (), w.fs, [.logAlready]⟩ := by
  unfold install
  rw [if_pos h]

/-- C3: install is idempotent: with the sentinel marker present it
returns success immediately, leaves the filesystem untouched and its only
event is the already-downloaded log line (in particular no network
event); and a successful install always leaves the sentinel set, so a
second call immediately after a successful first call is exactly such a
no-op. -/
theorem install_idempotent (w : World) (targetDir version : Str) :
    ((fsGet w.fs (joinP targetDir unpackedOkay)).isSome →
      install w targetDir version = ⟨.ok (), w.fs, [.logAlready]⟩) ∧
    ((install w targetDir version).result = .ok () →
      install { w with fs := (install w targetDir version).fs } targetDir version
        = ⟨.ok (), (install w targetDir version).fs, [.logAlready]⟩) := by
  constructor
  · exact install_noop w targetDir version
  · intro h
    have hs := install_ok_sentinel w targetDir version h
    exact install_noop _ targetDir version (by simpa using hs)

/-- Witness for C3: with the sentinel present, install is the immediate
no-op. -/
theorem install_idempotent_witness :
    install
      ⟨[((joinP (("d").toList) unpackedOkay), [])], ("linux").toList, ("amd64").toList,
        none, none, none, [], []⟩ (("d").toList) (("go1").toList)
      = ⟨.ok (),
          [((joinP (("d").toList) unpackedOkay), [])], [.logAlready]⟩ :=
  (install_idempotent _ _ _).1 (by decide)

theorem copyFromURL_ok (fs : FS) (af : Str) (g : GetResp) (hst : g.status = 200)
    (hcl : g.contentLength = -1 ∨ g.contentLength = (g.body.length : Int)) :
    copyFromURL fs (some g) af = (.ok (), fsSet (fsSet fs af []) af g.body) := by
  unfold copyFromURL
  dsimp only
  rw [if_neg (by simp [hst])]
  rcases hcl with h | h <;> simp [h]

theorem installFetch_mismatch (r : HeadResp) (g : GetResp) (fs : FS) (af : Str)
    (hst : g.status = 200)
    (hcl : g.contentLength = -1 ∨ g.contentLength = (g.body.length : Int))
    (hne : (g.body.length : Int) ≠ r.contentLength) :
    installFetch r (some g) fs af
      = (.error (.sizeMismatch g.body.length r.contentLength),
         fsSet (fsSet fs af []) af g.body, [.netGet]) := by
  unfold installFetch
  rw [copyFromURL_ok fs af g hst hcl]
  simp [hne]

theorem netGet_download_iff (r : HeadResp) (g : Option GetResp) (fs : FS) (af : Str) :
    Ev.netGet ∉ (installDownload r g fs af).2.2 ↔
      ∃ c, fsGet fs af = some c ∧ (c.length : Int) = r.contentLength := by
  constructor
  · intro h
    by_contra hne
    have hf : installDownload r g fs af = installFetch r g fs af :=
      installDownload_fetch r g fs af (fun c hc hsz => hne ⟨c, hc, hsz⟩)
    rw [hf, installFetch_evs] at h
    simp at h
  · rintro ⟨c, hc, hsz⟩
    rw [installDownload_reuse r g fs af c hc hsz]
    simp

theorem install_evs_decomp (w : World) (t v : Str) (r : HeadResp)
    (h0 : ¬ (fsGet w.fs (joinP t unpackedOkay)).isSome)
    (hh : w.headResp = some r)
    (h404 : r.status ≠ 404)
    (h200 : r.status = 200) :
    ∃ tail, (install w t v).evs
        = [Ev.mkdirAll, Ev.netHead]
          ++ (installDownload r w.getResp w.fs (archivePath w t v)).2.2 ++ tail ∧
      Ev.netGet ∉ tail := by
  unfold install
  rw [if_neg h0, hh]
  dsimp only
  rw [if_neg h404, if_neg (by simp [h200])]
  cases hdl : installDownload r w.getResp w.fs (archivePath w t v) with
  | mk res rest =>
    obtain ⟨fs1, dlEvs⟩ := rest
    cases res with
    | error e2 =>
      exact ⟨[], by simp, by simp⟩
    | ok u =>
      dsimp only
      cases hv : installVerify w.shaResp fs1 (archivePath w t v) with
      | mk vres vEvs =>
        have hnv : Ev.netGet ∉ vEvs := by
          have h1 := ev_not_in_verify w.shaResp fs1 (archivePath w t v)
            Ev.netGet (by decide) (by decide)
          rw [hv] at h1
          simpa using h1
        cases vres with
        | error e3 =>
          exact ⟨vEvs, by simp, hnv⟩
        | ok u2 =>
          dsimp only
          cases hup : unpackArchive t (archivePath w t v) w.tarEntries w.zipEntries fs1 with
          | mk ures fs2 =>
            cases ures with
            | error e4 =>
              exact ⟨vEvs ++ [Ev.logUnpacking, Ev.unpackArchiveEv], by simp, by simp [hnv]⟩
            | ok u3 =>
              exact ⟨vEvs ++ [Ev.logUnpacking, Ev.unpackArchiveEv,
                Ev.writeSentinel, Ev.logSuccess], by simp, by simp [hnv]⟩

/-- C5: with the sentinel absent and a 200 HEAD probe, install skips the
GET download exactly when the archive file already exists with size equal
to the HEAD content length; and when it must download and the delivered
body's length differs from the HEAD content length, install fails with
the size-mismatch error and never emits the sentinel write. -/
theorem install_archive_reuse (w : World) (targetDir version : Str) (r : HeadResp)
    (h0 : fsGet w.fs (joinP targetDir unpackedOkay) = none)
    (hh : w.headResp = some r)
    (hst : r.status = 200) :
    (Ev.netGet ∉ (install w targetDir version).evs ↔
      ∃ c, fsGet w.fs (archivePath w targetDir version) = some c ∧
        (c.length : Int) = r.contentLength) ∧
    (∀ g, w.getResp = some g → g.status = 200 →
      (g.contentLength = -1 ∨ g.contentLength = (g.body.length : Int)) →
      (g.body.length : Int) ≠ r.contentLength →
      (¬ ∃ c, fsGet w.fs (archivePath w targetDir version) = some c ∧
        (c.length : Int) = r.contentLength) →
      (install w targetDir version).result
          = .error (.sizeMismatch g.body.length r.contentLength) ∧
      Ev.writeSentinel ∉ (install w targetDir version).evs) := by
  have h0b : ¬ (fsGet w.fs (joinP targetDir unpackedOkay)).isSome = true := by simp [h0]
  have h404 : r.status ≠ 404 := by rw [hst]; decide
  constructor
  · obtain ⟨tail, hevs, hnt⟩ := install_evs_decomp w targetDir version r h0b hh h404 hst
    rw [hevs]
    have hiff : Ev.netGet ∈ ([Ev.mkdirAll, Ev.netHead]
          ++ (installDownload r w.getResp w.fs (archivePath w targetDir version)).2.2 ++ tail)
        ↔ Ev.netGet ∈ (installDownload r w.getResp w.fs (archivePath w targetDir version)).2.2 := by
      simp [hnt]
    exact (not_congr hiff).trans
      (netGet_download_iff r w.getResp w.fs (archivePath w targetDir version))
  · intro g hg hgst hcl hne hnoreuse
    have hdl : installDownload r w.getResp w.fs (archivePath w targetDir version)
        = (.error (.sizeMismatch g.body.length r.contentLength),
           fsSet (fsSet w.fs (archivePath w targetDir version) [])
             (archivePath w targetDir version) g.body, [.netGet]) := by
      rw [installDownload_fetch r w.getResp w.fs (archivePath w targetDir version)
        (fun c hc hsz => hnoreuse ⟨c, hc, hsz⟩), hg]
      exact installFetch_mismatch r g w.fs (archivePath w targetDir version) hgst hcl hne
    have hres : (install w targetDir version).result
        = .error (.sizeMismatch g.body.length r.contentLength) := by
      unfold install
      rw [if_neg h0b, hh]
      dsimp only
      rw [if_neg h404, if_neg (by simp [hst]), hdl]
    exact ⟨hres, install_error_no_sentinel w targetDir version _ hres⟩

/-- Witness for C5: a download whose three-byte body disagrees with the
advertised five-byte content length fails with the size-mismatch error
and does not write the sentinel. -/
theorem install_archive_reuse_witness :
    (install ⟨[], ("linux").toList, ("amd64").toList, some ⟨200, 5⟩,
        some ⟨200, -1, [1, 2, 3]⟩, none, [], []⟩
      (("d").toList) (("go1").toList)).result = .error (.sizeMismatch 3 5) ∧
    Ev.writeSentinel ∉ (install ⟨[], ("linux").toList, ("amd64").toList, some ⟨200, 5⟩,
        some ⟨200, -1, [1, 2, 3]⟩, none, [], []⟩
      (("d").toList) (("go1").toList)).evs :=
  (install_archive_reuse
      ⟨[], ("linux").toList, ("amd64").toList, some ⟨200, 5⟩,
        some ⟨200, -1, [1, 2, 3]⟩, none, [], []⟩
      (("d").toList) (("go1").toList) ⟨200, 5⟩ rfl rfl rfl).2
    ⟨200, -1, [1, 2, 3]⟩ rfl rfl
    (Or.inl rfl) (by decide) (by rintro ⟨c, hc, _⟩; simp [fsGet] at hc)

/-- C6: for every environment list and case-insensitivity flag, the
deduplicated output contains, for each (optionally case-folded) key,
exactly one entry, namely the full string of that key's last occurrence
in the input; entries lacking an = after the first character pass through
unchanged and are never treated as duplicates. -/
theorem dedupEnv_last_wins (ci : Bool) (env : List Str) (k : Str) :
    (dedupEnv ci env).filter (fun kv => decide (entryKey ci kv = some k))
      = (lastWithKey ci k env).toList ∧
    (dedupEnv ci env).filter (fun kv => decide (entryKey ci kv = none))
      = env.filter (fun kv => decide (entryKey ci kv = none)) := by
  rw [dedupEnv_eq_specDedup]
  exact ⟨specDedup_filter_key ci k env.length env (le_refl _),
    specDedup_filter_malformed ci env.length env (le_refl _)⟩

/-- C8: dedupEnv preserves order exactly as the first-occurrence
description specDedup states it: output entries appear in the order of
their key's first occurrence, each well-formed slot holds the full
KEY=VALUE string of the key's last occurrence (so a winning duplicate
replaces in place rather than being appended), and malformed entries
pass through in place. -/
theorem dedupEnv_order (ci : Bool) (env : List Str) :
    dedupEnv ci env = specDedup ci env :=
  dedupEnv_eq_specDedup ci env
